import Mathlib

/-!
# Chain identifiers (`types/chain_id.go`)

A shallow embedding of the chain-id validator and parser:

* Go strings are Lean `String`s (sequences of runes, so the strings modelled
  are the well-formed UTF-8 ones); `len` is the number of bytes of the UTF-8
  encoding.
* The compiled pattern `ethermintChainID` is a value of a small regular
  expression syntax, run by a backtracking matcher with leftmost-first
  (greedy) priorities and submatch extraction, as Go's `regexp` does.
* `*big.Int` is `Int`; a Go result `(*big.Int, error)` is a pair of options
  (`none` is `nil`).
* The two package-level function variables are the fields of `Registry`.
-/

namespace ChainID

/-! ## Regular expressions -/

/-- Syntax of the regular expressions used by the pattern. -/
inductive Regex where
  | empty : Regex
  | beginText : Regex
  | endText : Regex
  | lit : Char → Regex
  | range : Char → Char → Regex
  | cat : Regex → Regex → Regex
  | star : Regex → Regex
  | capture : Nat → Regex → Regex
  deriving Repr, DecidableEq

namespace Regex

/-- The repetition `r{n}`: exactly `n` copies of `r`. -/
def exactly (r : Regex) : Nat → Regex
  | 0 => empty
  | n + 1 => cat r (exactly r n)

/-- The repetition `r{n,}`: `n` copies of `r` followed by `r*`. -/
def atLeast (r : Regex) : Nat → Regex
  | 0 => star r
  | n + 1 => cat r (atLeast r n)

end Regex

/-- A thread of the matcher: how many runes were consumed, what is left of the
input, and the text of the groups closed so far (latest first). -/
structure MState where
  pos : Nat
  rest : List Char
  caps : List (Nat × List Char)
  deriving Repr, DecidableEq

/-- Membership of a rune in the class `[lo-hi]`. -/
def inRange (lo hi : Char) (x : Char) : Bool := decide (lo ≤ x) && decide (x ≤ hi)

/-- Consume one rune satisfying `p`. -/
def stepChar (p : Char → Bool) (k : MState → Option MState) (st : MState) : Option MState :=
  match st.rest with
  | [] => none
  | c :: cs => if p c then k { st with pos := st.pos + 1, rest := cs } else none

/-- Greedy iteration: try one more round of `step` (which has to consume
input), and fall back to the continuation. -/
def starLoop (step : (MState → Option MState) → MState → Option MState) :
    Nat → (MState → Option MState) → MState → Option MState
  | 0, k, st => k st
  | n + 1, k, st =>
    (step (fun st1 => if st1.rest.length < st.rest.length then starLoop step n k st1 else none) st).orElse
      (fun _ => k st)

/-- Run `r` from `st`, then the continuation `k`; alternatives are tried in
priority order and the first success is returned. -/
def run : Regex → (MState → Option MState) → MState → Option MState
  | .empty, k, st => k st
  | .beginText, k, st => if st.pos = 0 then k st else none
  | .endText, k, st => if st.rest.isEmpty then k st else none
  | .lit c, k, st => stepChar (fun x => x == c) k st
  | .range lo hi, k, st => stepChar (inRange lo hi) k st
  | .cat r s, k, st => run r (run s k) st
  | .star r, k, st => starLoop (run r) st.rest.length k st
  | .capture i r, k, st =>
    run r (fun st1 => k { st1 with caps := (i, st.rest.take (st1.pos - st.pos)) :: st1.caps }) st

/-- Leftmost match: the first start offset at which `re` matches, with the
input left at that offset and the final thread. -/
def findAt (re : Regex) : Nat → List Char → Option (List Char × MState)
  | pos, rest =>
    match run re some { pos := pos, rest := rest, caps := [] } with
    | some st => some (rest.take (st.pos - pos), st)
    | none =>
      match rest with
      | [] => none
      | _ :: cs => findAt re (pos + 1) cs

/-- Text of group `i` in a finished thread; a group that took no part is empty. -/
def submatch (st : MState) (i : Nat) : String :=
  match st.caps.lookup i with
  | some t => String.mk t
  | none => ""

/-- A compiled expression: its syntax and its number of groups. -/
structure Regexp where
  expr : Regex
  numSubexp : Nat
  deriving Repr, DecidableEq

/-- Go `(*Regexp).MatchString`. -/
def Regexp.MatchString (re : Regexp) (s : String) : Bool :=
  (findAt re.expr 0 s.data).isSome

/-- Go `(*Regexp).FindStringSubmatch`: the whole match followed by the text of
each group, `none` (a nil slice) when there is no match. -/
def Regexp.FindStringSubmatch (re : Regexp) (s : String) : Option (List String) :=
  match findAt re.expr 0 s.data with
  | none => none
  | some (whole, st) => some (String.mk whole :: (List.range re.numSubexp).map (fun i => submatch st (i + 1)))

/-! ## The pattern -/

/-- Pattern `[a-z]{1,}`. -/
def regexChainID : Regex := (Regex.range 'a' 'z').atLeast 1
/-- Pattern `_{1}`. -/
def regexEIP155Separator : Regex := (Regex.lit '_').exactly 1
/-- Pattern `[1-9][0-9]*`. -/
def regexEIP155 : Regex := .cat (.range '1' '9') (.star (.range '0' '9'))
/-- Pattern `-{1}`. -/
def regexEpochSeparator : Regex := (Regex.lit '-').exactly 1
/-- Pattern `[1-9][0-9]*`. -/
def regexEpoch : Regex := .cat (.range '1' '9') (.star (.range '0' '9'))

/-- The compiled pattern `^(%s)%s(%s)%s(%s)$` over the five pieces above. -/
def ethermintChainID : Regexp where
  expr :=
    .cat .beginText (.cat (.capture 1 regexChainID) (.cat regexEIP155Separator
      (.cat (.capture 2 regexEIP155) (.cat regexEpochSeparator
        (.cat (.capture 3 regexEpoch) .endText)))))
  numSubexp := 3

/-! ## Strings and integers -/

/-- Number of bytes of the UTF-8 encoding of a rune. -/
def runeLen (c : Char) : Nat :=
  if c.toNat < 0x80 then 1 else if c.toNat < 0x800 then 2 else if c.toNat < 0x10000 then 3 else 4

/-- Go `len(s)`: the length of a string in bytes. -/
def len (s : String) : Nat := (s.data.map runeLen).sum

/-- Go `unicode.IsSpace`. -/
def isSpace (c : Char) : Bool :=
  let r := c.toNat
  if r ≤ 0xFF then
    r == 0x09 || r == 0x0A || r == 0x0B || r == 0x0C || r == 0x0D || r == 0x20 || r == 0x85 || r == 0xA0
  else
    r == 0x1680 || (0x2000 ≤ r && r ≤ 0x200A) || r == 0x2028 || r == 0x2029 || r == 0x202F ||
      r == 0x205F || r == 0x3000

/-- Go `strings.TrimSpace`: drop the white space at both ends. -/
def TrimSpace (s : String) : String :=
  String.mk ((s.data.dropWhile isSpace).rdropWhile isSpace)

/-- Value of a decimal digit, `none` for any other rune. -/
def digitVal (c : Char) : Option Nat :=
  if '0' ≤ c ∧ c ≤ '9' then some (c.toNat - '0'.toNat) else none

/-- Scan the digits of a base-10 numeral: the value so far, the number of
digits read, and the rest of the input at the first rune that is no digit. -/
def scanDigits : List Char → Nat → Nat → Nat × Nat × List Char
  | [], acc, count => (acc, count, [])
  | c :: cs, acc, count =>
    match digitVal c with
    | some d => scanDigits cs (acc * 10 + d) (count + 1)
    | none => (acc, count, c :: cs)

/-- Read an optional sign: whether the number is negative, and the input
after the sign. -/
def scanSign : List Char → Bool × List Char
  | '+' :: cs => (false, cs)
  | '-' :: cs => (true, cs)
  | cs => (false, cs)

/-- Go `new(big.Int).SetString(s, 10)`: an optional sign, then at least one
digit, and nothing else; `none` is the failure `(nil, false)`. -/
def SetString10 (s : String) : Option Int :=
  let sb := scanSign s.data
  match scanDigits sb.2 0 0 with
  | (_, 0, _) => none
  | (v, _, []) => some (if sb.1 then - (v : Int) else (v : Int))
  | (_, _, _ :: _) => none

/-! ## Errors -/

/-- A Go `error` value: either a plain error (`errors.New`) or a registered
error of type `ε` wrapped with a message (`sdkerrors.Wrapf`). -/
inductive GoError (ε : Type) where
  | plain : String → GoError ε
  | wrapped : ε → String → GoError ε
  deriving Repr, DecidableEq

/-- Go `sdkerrors.Wrapf(err, format, args...)`, the message already formatted. -/
def Wrapf {ε : Type} (err : ε) (msg : String) : GoError ε := .wrapped err msg

/-- The registered error an error value wraps, if any (what `errors.Is` sees). -/
def GoError.kind {ε : Type} : GoError ε → Option ε
  | .plain _ => none
  | .wrapped e _ => some e

/-- A Go result `(*big.Int, error)`; `none` is `nil`. -/
abbrev ParseResult (ε : Type) : Type := Option Int × Option (GoError ε)

/-- Go `%v` of a `[]string`: the elements between brackets, separated by
blanks; a nil slice prints as `[]`. -/
def fmtStrings : Option (List String) → String
  | none => "[]"
  | some l => "[" ++ " ".intercalate l ++ "]"

/-! ## The chain-id functions -/

/-- DefaultValidChainID returns the default valid function. -/
def DefaultValidChainID (chainID : String) : Bool :=
  if len chainID > 48 then
    false
  else
    ethermintChainID.MatchString chainID

/-- DefaultParseChainID returns the default parse function. The registered
error `ErrInvalidChainID` is declared elsewhere in the package and is taken as
a parameter. -/
def DefaultParseChainID {ε : Type} (ErrInvalidChainID : ε) (chainID : String) : ParseResult ε :=
  let chainID := TrimSpace chainID
  if len chainID > 48 then
    (none, some (Wrapf ErrInvalidChainID ("chain-id '" ++ chainID ++ "' cannot exceed 48 chars")))
  else
    let ms := ethermintChainID.FindStringSubmatch chainID
    if ms = none ∨ (ms.getD []).length ≠ 4 ∨ (ms.getD []).getD 1 "" = "" then
      (none, some (Wrapf ErrInvalidChainID (chainID ++ ": " ++ fmtStrings ms)))
    else
      -- verify that the chain-id entered is a base 10 integer
      match SetString10 ((ms.getD []).getD 2 "") with
      | none =>
        (none, some (Wrapf ErrInvalidChainID
          ("epoch " ++ (ms.getD []).getD 2 "" ++ " must be base-10 integer format")))
      | some chainIDInt => (some chainIDInt, none)

/-- The two package-level function variables `validChainIDFunc` and
`parseChainIDFunc`. -/
structure Registry (ε : Type) where
  validChainIDFunc : String → Bool
  parseChainIDFunc : String → ParseResult ε

/-- The state at package initialisation: both variables hold the defaults. -/
def Registry.initial {ε : Type} (ErrInvalidChainID : ε) : Registry ε where
  validChainIDFunc := DefaultValidChainID
  parseChainIDFunc := DefaultParseChainID ErrInvalidChainID

/-- SetValidChainIDFunc overrides the function used for chain-id validation. -/
def SetValidChainIDFunc {ε : Type} (fn : String → Bool) (st : Registry ε) : Registry ε :=
  { st with validChainIDFunc := fn }

/-- IsValidChainID calls the current valid function; the state is returned
as it was. -/
def IsValidChainID {ε : Type} (chainID : String) (st : Registry ε) : Bool × Registry ε :=
  (st.validChainIDFunc chainID, st)

/-- SetParseChainIDFunc overrides the function used for chain-id parse. -/
def SetParseChainIDFunc {ε : Type} (fn : String → ParseResult ε) (st : Registry ε) : Registry ε :=
  { st with parseChainIDFunc := fn }

/-- ParseChainID calls the current parse function; the state is returned as
it was. -/
def ParseChainID {ε : Type} (chainID : String) (st : Registry ε) : ParseResult ε × Registry ε :=
  (st.parseChainIDFunc chainID, st)

/-! ## The grammar, as the specification words it -/

/-- A non-empty string of the characters `a`..`z`. -/
def IsName (t : String) : Prop :=
  t ≠ "" ∧ ∀ c ∈ t.data, 'a' ≤ c ∧ c ≤ 'z'

/-- A non-empty string of decimal digits whose first digit is `1`..`9`. -/
def IsNumeral (t : String) : Prop :=
  t ≠ "" ∧ (∀ c ∈ t.data, '0' ≤ c ∧ c ≤ '9') ∧ ∀ c ∈ t.data.head?, '1' ≤ c ∧ c ≤ '9'

/-- The shape `name_N-M`. -/
def InGrammar (s : String) : Prop :=
  ∃ name n m : String, IsName name ∧ IsNumeral n ∧ IsNumeral m ∧ s = name ++ "_" ++ n ++ "-" ++ m

instance (t : String) : Decidable (IsName t) := by
  unfold IsName; infer_instance

instance (t : String) : Decidable (IsNumeral t) := by
  unfold IsNumeral; infer_instance

/-- The digits of a numeral, least significant first. -/
def digitsOf (t : String) : List Nat :=
  t.data.reverse.map (fun c => c.toNat - '0'.toNat)

/-- The number a decimal numeral denotes. -/
def decimalValue (t : String) : Nat := Nat.ofDigits 10 (digitsOf t)

/-! ## Sequences of setter calls -/

/-- A call of one of the two setters, with its argument. -/
inductive SetterCall (ε : Type) where
  | setValid : (String → Bool) → SetterCall ε
  | setParse : (String → ParseResult ε) → SetterCall ε

/-- Run one setter call. -/
def runCall {ε : Type} : SetterCall ε → Registry ε → Registry ε
  | .setValid fn, st => SetValidChainIDFunc fn st
  | .setParse fn, st => SetParseChainIDFunc fn st

/-- Run a sequence of setter calls, the first call of the list first. -/
def runCalls {ε : Type} (calls : List (SetterCall ε)) (st : Registry ε) : Registry ε :=
  calls.foldl (fun acc c => runCall c acc) st

/-- The argument of a call, when it is a call of `SetValidChainIDFunc`. -/
def SetterCall.validArg {ε : Type} : SetterCall ε → Option (String → Bool)
  | .setValid fn => some fn
  | .setParse _ => none

/-- The argument of a call, when it is a call of `SetParseChainIDFunc`. -/
def SetterCall.parseArg {ε : Type} : SetterCall ε → Option (String → ParseResult ε)
  | .setValid _ => none
  | .setParse fn => some fn

/-- The argument of the last `SetValidChainIDFunc` call of a sequence. -/
def lastValidArg {ε : Type} (calls : List (SetterCall ε)) : Option (String → Bool) :=
  (calls.filterMap SetterCall.validArg).getLast?

/-- The argument of the last `SetParseChainIDFunc` call of a sequence. -/
def lastParseArg {ε : Type} (calls : List (SetterCall ε)) : Option (String → ParseResult ε) :=
  (calls.filterMap SetterCall.parseArg).getLast?

/-! ## A validator with the guard of the parser -/

/-- The validator as the specification compares it: the limit of 48 is
measured on the trimmed string, the raw string is matched. -/
def TrimmedGuardValidChainID (chainID : String) : Bool :=
  if len (TrimSpace chainID) > 48 then
    false
  else
    ethermintChainID.MatchString chainID

/-! ## The grammar on lists of runes, for the proofs -/

/-- A rune of `[lo-hi]` followed by runes of `[lo2-hi2]`. -/
def HeadTail (lo hi lo2 hi2 : Char) (t : List Char) : Prop :=
  ∃ x xs, t = x :: xs ∧ inRange lo hi x = true ∧ ∀ c ∈ xs, inRange lo2 hi2 c = true

/-- The input splits as `name_N-M`. -/
def SplitsAs (l name n m : List Char) : Prop :=
  l = name ++ '_' :: (n ++ '-' :: m) ∧ HeadTail 'a' 'z' 'a' 'z' name ∧
    HeadTail '1' '9' '0' '9' n ∧ HeadTail '1' '9' '0' '9' m

/-! ## The matcher on character classes -/

theorem stepChar_nil (p : Char → Bool) (k : MState → Option MState) (pos : Nat)
    (caps : List (Nat × List Char)) : stepChar p k ⟨pos, [], caps⟩ = none := rfl

theorem stepChar_cons (p : Char → Bool) (k : MState → Option MState) (pos : Nat) (c : Char)
    (cs : List Char) (caps : List (Nat × List Char)) :
    stepChar p k ⟨pos, c :: cs, caps⟩ = if p c then k ⟨pos + 1, cs, caps⟩ else none := rfl

/-- The loop over a class reaches the end of a maximal run of the class. -/
theorem starLoop_class_complete (p : Char → Bool) (k : MState → Option MState) (r : MState)
    (suf : List Char) (caps : List (Nat × List Char)) (hsuf : ∀ c ∈ suf.head?, p c = false) :
    ∀ (pre : List Char) (n pos : Nat), (∀ c ∈ pre, p c = true) → pre.length ≤ n →
      k ⟨pos + pre.length, suf, caps⟩ = some r →
      starLoop (stepChar p) n k ⟨pos, pre ++ suf, caps⟩ = some r := by
  intro pre
  induction pre with
  | nil =>
    intro n pos _ _ hk
    cases n with
    | zero => simpa [starLoop] using hk
    | succ n =>
      have hstep : ∀ K, stepChar p K ⟨pos, suf, caps⟩ = none := by
        intro K
        cases suf with
        | nil => rfl
        | cons c cs =>
          have : p c = false := hsuf c (by simp)
          simp [stepChar_cons, this]
      simp only [starLoop, List.nil_append, hstep, Option.orElse]
      simpa using hk
  | cons c pre ih =>
    intro n pos hp hn hk
    cases n with
    | zero => simp at hn
    | succ n =>
      have hc : p c = true := hp c (by simp)
      have hrec : starLoop (stepChar p) n k ⟨pos + 1, pre ++ suf, caps⟩ = some r := by
        apply ih n (pos + 1) (fun x hx => hp x (by simp [hx])) (by simpa using hn)
        rw [← hk]; congr 2; simp; omega
      simp only [starLoop, List.cons_append, stepChar_cons, hc, if_true, List.length_cons,
        Nat.lt_succ_self, hrec, Option.orElse]

/-- Whatever the loop over a class returns comes from the continuation after
some run of the class. -/
theorem starLoop_class_sound (p : Char → Bool) (k : MState → Option MState) (r : MState)
    (caps : List (Nat × List Char)) :
    ∀ (n : Nat) (rest : List Char) (pos : Nat),
      starLoop (stepChar p) n k ⟨pos, rest, caps⟩ = some r →
      ∃ pre suf, rest = pre ++ suf ∧ (∀ c ∈ pre, p c = true) ∧
        k ⟨pos + pre.length, suf, caps⟩ = some r := by
  intro n
  induction n with
  | zero =>
    intro rest pos h
    exact ⟨[], rest, rfl, by simp, by simpa [starLoop] using h⟩
  | succ n ih =>
    intro rest pos h
    simp only [starLoop] at h
    cases rest with
    | nil =>
      simp only [stepChar_nil, Option.orElse] at h
      exact ⟨[], [], rfl, by simp, by simpa using h⟩
    | cons c cs =>
      rw [stepChar_cons] at h
      by_cases hc : p c = true
      · simp only [hc, if_true, List.length_cons, Nat.lt_succ_self] at h
        cases hrec : starLoop (stepChar p) n k ⟨pos + 1, cs, caps⟩ with
        | none =>
          rw [hrec] at h
          simp only [Option.orElse] at h
          exact ⟨[], c :: cs, rfl, by simp, by simpa using h⟩
        | some r1 =>
          rw [hrec] at h
          simp only [Option.orElse, Option.some.injEq] at h
          subst h
          obtain ⟨pre, suf, hsplit, hpre, hk⟩ := ih cs (pos + 1) hrec
          refine ⟨c :: pre, suf, by simp [hsplit], ?_, ?_⟩
          · intro x hx
            rcases List.mem_cons.1 hx with rfl | hx
            · exact hc
            · exact hpre x hx
          · rw [← hk]; congr 2; simp; omega
      · simp only [hc, Option.orElse] at h
        exact ⟨[], c :: cs, rfl, by simp, by simpa using h⟩

theorem run_range_eq (lo hi : Char) : run (.range lo hi) = stepChar (inRange lo hi) := rfl

/-- A group `([lo-hi][lo2-hi2]*)` in front of a rune outside the second class
takes the whole run and records it. -/
theorem run_group_complete (i : Nat) (lo hi lo2 hi2 : Char) (k : MState → Option MState)
    (r : MState) (x : Char) (pre suf : List Char) (pos : Nat) (caps : List (Nat × List Char))
    (hx : inRange lo hi x = true) (hpre : ∀ c ∈ pre, inRange lo2 hi2 c = true)
    (hsuf : ∀ c ∈ suf.head?, inRange lo2 hi2 c = false)
    (hk : k ⟨pos + (pre.length + 1), suf, (i, x :: pre) :: caps⟩ = some r) :
    run (.capture i (.cat (.range lo hi) (.star (.range lo2 hi2)))) k ⟨pos, x :: (pre ++ suf), caps⟩
      = some r := by
  simp only [run, stepChar_cons, hx, if_true, run_range_eq]
  apply starLoop_class_complete (inRange lo2 hi2) _ r suf caps hsuf pre _ (pos + 1) hpre (by simp)
  have h2 : pos + 1 + pre.length = pos + (pre.length + 1) := by omega
  simp only [h2, Nat.add_sub_cancel_left, List.take_succ_cons, List.take_left, hk]

/-- Whatever a group `([lo-hi][lo2-hi2]*)` returns comes from the continuation
after a rune of the first class and a run of the second. -/
theorem run_group_sound (i : Nat) (lo hi lo2 hi2 : Char) (k : MState → Option MState)
    (r : MState) (rest : List Char) (pos : Nat) (caps : List (Nat × List Char))
    (h : run (.capture i (.cat (.range lo hi) (.star (.range lo2 hi2)))) k ⟨pos, rest, caps⟩
      = some r) :
    ∃ x pre suf, rest = x :: (pre ++ suf) ∧ inRange lo hi x = true ∧
      (∀ c ∈ pre, inRange lo2 hi2 c = true) ∧
      k ⟨pos + (pre.length + 1), suf, (i, x :: pre) :: caps⟩ = some r := by
  simp only [run, run_range_eq] at h
  cases rest with
  | nil => simp [stepChar_nil] at h
  | cons x xs =>
    rw [stepChar_cons] at h
    by_cases hx : inRange lo hi x = true
    · simp only [hx, if_true] at h
      obtain ⟨pre, suf, hsplit, hpre, hk⟩ := starLoop_class_sound _ _ r caps _ xs (pos + 1) h
      refine ⟨x, pre, suf, by rw [hsplit], hx, hpre, ?_⟩
      have h2 : pos + 1 + pre.length = pos + (pre.length + 1) := by omega
      simpa only [h2, hsplit, Nat.add_sub_cancel_left, List.take_succ_cons, List.take_left] using hk
    · simp [hx] at h

theorem run_lit_cons (c : Char) (k : MState → Option MState) (pos : Nat) (cs : List Char)
    (caps : List (Nat × List Char)) :
    run ((Regex.lit c).exactly 1) k ⟨pos, c :: cs, caps⟩ = k ⟨pos + 1, cs, caps⟩ := by
  simp [Regex.exactly, run, stepChar_cons]

theorem run_lit_sound (c : Char) (k : MState → Option MState) (r : MState) (pos : Nat)
    (rest : List Char) (caps : List (Nat × List Char))
    (h : run ((Regex.lit c).exactly 1) k ⟨pos, rest, caps⟩ = some r) :
    ∃ cs, rest = c :: cs ∧ k ⟨pos + 1, cs, caps⟩ = some r := by
  simp only [Regex.exactly, run] at h
  cases rest with
  | nil => simp [stepChar_nil] at h
  | cons x xs =>
    rw [stepChar_cons] at h
    by_cases hx : x = c
    · subst hx
      exact ⟨xs, rfl, by simpa using h⟩
    · simp [hx] at h

/-! ## The pattern and the grammar -/

theorem run_expr_eq (st : MState) :
    run ethermintChainID.expr some st =
      if st.pos = 0 then
        run (.capture 1 regexChainID) (run regexEIP155Separator (run (.capture 2 regexEIP155)
          (run regexEpochSeparator (run (.capture 3 regexEpoch) (run .endText some))))) st
      else none := rfl

theorem run_pattern_complete (l name n m : List Char) (h : SplitsAs l name n m) :
    run ethermintChainID.expr some ⟨0, l, []⟩
      = some ⟨l.length, [], [(3, m), (2, n), (1, name)]⟩ := by
  obtain ⟨hl, ⟨a, as, rfl, ha, has⟩, ⟨d, ds, rfl, hd, hds⟩, ⟨e, es, rfl, he, hes⟩⟩ := h
  subst hl
  rw [run_expr_eq, if_pos rfl]
  apply run_group_complete 1 'a' 'z' 'a' 'z' _ _ a as _ 0 [] ha has (by simp; decide)
  rw [regexEIP155Separator, run_lit_cons]
  apply run_group_complete 2 '1' '9' '0' '9' _ _ d ds _ _ _ hd hds (by simp; decide)
  rw [regexEpochSeparator, run_lit_cons]
  rw [← List.append_nil (e :: es)]
  apply run_group_complete 3 '1' '9' '0' '9' _ _ e es [] _ _ he hes (by simp)
  simp [run]
  omega

theorem run_pattern_sound (l : List Char) (r : MState)
    (h : run ethermintChainID.expr some ⟨0, l, []⟩ = some r) :
    ∃ name n m, SplitsAs l name n m := by
  rw [run_expr_eq, if_pos rfl] at h
  obtain ⟨a, as, suf1, rfl, ha, has, h⟩ := run_group_sound 1 'a' 'z' 'a' 'z' _ _ _ _ _ h
  rw [regexEIP155Separator] at h
  obtain ⟨cs1, rfl, h⟩ := run_lit_sound _ _ _ _ _ _ h
  obtain ⟨d, ds, suf2, rfl, hd, hds, h⟩ := run_group_sound 2 '1' '9' '0' '9' _ _ _ _ _ h
  rw [regexEpochSeparator] at h
  obtain ⟨cs2, rfl, h⟩ := run_lit_sound _ _ _ _ _ _ h
  obtain ⟨e, es, suf3, rfl, he, hes, h⟩ := run_group_sound 3 '1' '9' '0' '9' _ _ _ _ _ h
  have hend : suf3 = [] := by
    cases suf3 with
    | nil => rfl
    | cons c cs => simp [run] at h
  subst hend
  exact ⟨a :: as, d :: ds, e :: es, by simp, ⟨a, as, rfl, ha, has⟩, ⟨d, ds, rfl, hd, hds⟩,
    ⟨e, es, rfl, he, hes⟩⟩

/-- The pattern starts with `^`: it matches at no offset but the first. -/
theorem findAt_pattern_pos (rest : List Char) :
    ∀ pos, pos ≠ 0 → findAt ethermintChainID.expr pos rest = none := by
  induction rest with
  | nil =>
    intro pos hpos
    rw [findAt, run_expr_eq, if_neg hpos]
  | cons c cs ih =>
    intro pos hpos
    rw [findAt, run_expr_eq, if_neg hpos]
    exact ih (pos + 1) (by omega)

theorem findAt_pattern (l : List Char) :
    findAt ethermintChainID.expr 0 l =
      (run ethermintChainID.expr some ⟨0, l, []⟩).map (fun st => (l.take st.pos, st)) := by
  cases hrun : run ethermintChainID.expr some ⟨0, l, []⟩ with
  | some st => cases l <;> (rw [findAt, hrun]; rfl)
  | none =>
    cases l with
    | nil => rw [findAt, hrun]; rfl
    | cons c cs =>
      rw [findAt, hrun]
      exact findAt_pattern_pos cs 1 (by omega)

theorem MatchString_iff (s : String) :
    ethermintChainID.MatchString s = true ↔ ∃ name n m, SplitsAs s.data name n m := by
  unfold Regexp.MatchString
  rw [findAt_pattern]
  constructor
  · intro h
    cases hrun : run ethermintChainID.expr some ⟨0, s.data, []⟩ with
    | none => rw [hrun] at h; simp at h
    | some r => exact run_pattern_sound s.data r hrun
  · rintro ⟨name, n, m, h⟩
    rw [run_pattern_complete s.data name n m h]
    rfl

theorem FindStringSubmatch_of_splits (s : String) (name n m : List Char)
    (h : SplitsAs s.data name n m) :
    ethermintChainID.FindStringSubmatch s = some [s, String.mk name, String.mk n, String.mk m] := by
  unfold Regexp.FindStringSubmatch
  rw [findAt_pattern, run_pattern_complete s.data name n m h]
  have hs : String.mk (List.take s.length s.data) = s := by
    rw [String.length, List.take_length]
  simp [ethermintChainID, List.range_succ, submatch, List.lookup, hs]

theorem FindStringSubmatch_eq_none (s : String) (h : ethermintChainID.MatchString s = false) :
    ethermintChainID.FindStringSubmatch s = none := by
  unfold Regexp.MatchString at h
  unfold Regexp.FindStringSubmatch
  cases hf : findAt ethermintChainID.expr 0 s.data with
  | none => rfl
  | some x => rw [hf] at h; simp at h

/-! ## The grammar on strings -/

theorem inRange_iff (lo hi x : Char) : inRange lo hi x = true ↔ lo ≤ x ∧ x ≤ hi := by
  simp [inRange]

theorem isName_iff (t : String) : IsName t ↔ HeadTail 'a' 'z' 'a' 'z' t.data := by
  obtain ⟨l⟩ := t
  unfold IsName HeadTail
  simp only [inRange_iff]
  cases l with
  | nil => simp
  | cons x xs =>
    constructor
    · rintro ⟨-, h⟩
      exact ⟨x, xs, rfl, h x (by simp), fun c hc => h c (by simp [hc])⟩
    · rintro ⟨y, ys, hy, h1, h2⟩
      simp only [List.cons.injEq] at hy
      obtain ⟨rfl, rfl⟩ := hy
      refine ⟨by simp [String.ext_iff], ?_⟩
      intro c hc
      rcases List.mem_cons.1 hc with rfl | hc
      · exact h1
      · exact h2 c hc

theorem isNumeral_iff (t : String) : IsNumeral t ↔ HeadTail '1' '9' '0' '9' t.data := by
  obtain ⟨l⟩ := t
  unfold IsNumeral HeadTail
  simp only [inRange_iff]
  cases l with
  | nil => simp
  | cons x xs =>
    constructor
    · rintro ⟨-, h, h0⟩
      exact ⟨x, xs, rfl, h0 x (by simp), fun c hc => h c (by simp [hc])⟩
    · rintro ⟨y, ys, hy, h1, h2⟩
      simp only [List.cons.injEq] at hy
      obtain ⟨rfl, rfl⟩ := hy
      refine ⟨by simp [String.ext_iff], ?_, ?_⟩
      · intro c hc
        rcases List.mem_cons.1 hc with rfl | hc
        · exact ⟨Char.le_trans (by decide) h1.1, h1.2⟩
        · exact h2 c hc
      · intro c hc
        simp only [List.head?_cons, Option.mem_def, Option.some.injEq] at hc
        subst hc
        exact h1

theorem inGrammar_iff (s : String) :
    InGrammar s ↔ ∃ name n m, SplitsAs s.data name n m := by
  unfold InGrammar SplitsAs
  constructor
  · rintro ⟨name, n, m, h1, h2, h3, rfl⟩
    exact ⟨name.data, n.data, m.data, by simp [String.data_append],
      (isName_iff name).1 h1, (isNumeral_iff n).1 h2, (isNumeral_iff m).1 h3⟩
  · rintro ⟨name, n, m, hs, h1, h2, h3⟩
    refine ⟨String.mk name, String.mk n, String.mk m, (isName_iff _).2 h1, (isNumeral_iff _).2 h2,
      (isNumeral_iff _).2 h3, ?_⟩
    apply String.ext
    simp [String.data_append, hs]

/-! ## White space, lengths and numerals -/

theorem toNat_of_inRange (lo hi x : Char) (h : inRange lo hi x = true) :
    lo.toNat ≤ x.toNat ∧ x.toNat ≤ hi.toNat := (inRange_iff lo hi x).1 h

theorem isSpace_eq_false (c : Char) (h1 : 33 ≤ c.toNat) (h2 : c.toNat ≤ 126) :
    isSpace c = false := by
  have h3 : c.toNat ≤ 255 := by omega
  simp only [isSpace, h3, if_true]
  simp only [Bool.or_eq_false_iff, beq_eq_false_iff_ne, ne_eq]
  omega

/-- A string with no white space at either end is left as it is. -/
theorem TrimSpace_eq_self (s : String) (h1 : ∀ c ∈ s.data.head?, isSpace c = false)
    (h2 : ∀ c ∈ s.data.getLast?, isSpace c = false) : TrimSpace s = s := by
  obtain ⟨l⟩ := s
  unfold TrimSpace
  congr 1
  simp only at h1 h2 ⊢
  have hd : l.dropWhile isSpace = l := by
    cases l with
    | nil => rfl
    | cons x xs =>
      have : isSpace x = false := h1 x (by simp)
      simp [List.dropWhile, this]
  rw [hd, List.rdropWhile_eq_self_iff]
  intro hl
  have : isSpace (l.getLast hl) = false := h2 _ (by simp [List.getLast?_eq_getLast _ hl])
  simp [this]

theorem mem_splitsAs (l name n m : List Char) (h : SplitsAs l name n m) :
    ∀ c ∈ l, 33 ≤ c.toNat ∧ c.toNat ≤ 126 := by
  obtain ⟨rfl, ⟨a, as, rfl, ha, has⟩, ⟨d, ds, rfl, hd, hds⟩, ⟨e, es, rfl, he, hes⟩⟩ := h
  have r1 : ∀ c, inRange 'a' 'z' c = true → 33 ≤ c.toNat ∧ c.toNat ≤ 126 := by
    intro c hc
    have := toNat_of_inRange _ _ _ hc
    have e1 : 'a'.toNat = 97 := rfl
    have e2 : 'z'.toNat = 122 := rfl
    omega
  have r2 : ∀ c, inRange '0' '9' c = true → 33 ≤ c.toNat ∧ c.toNat ≤ 126 := by
    intro c hc
    have := toNat_of_inRange _ _ _ hc
    have e1 : '0'.toNat = 48 := rfl
    have e2 : '9'.toNat = 57 := rfl
    omega
  have r3 : ∀ c, inRange '1' '9' c = true → 33 ≤ c.toNat ∧ c.toNat ≤ 126 := by
    intro c hc
    have := toNat_of_inRange _ _ _ hc
    have e1 : '1'.toNat = 49 := rfl
    have e2 : '9'.toNat = 57 := rfl
    omega
  intro c hc
  simp only [List.mem_append, List.mem_cons] at hc
  rcases hc with (rfl | hc) | rfl | (rfl | hc) | rfl | rfl | hc
  · exact r1 _ ha
  · exact r1 _ (has c hc)
  · decide
  · exact r3 _ hd
  · exact r2 _ (hds c hc)
  · decide
  · exact r3 _ he
  · exact r2 _ (hes c hc)

/-- A string of the grammar has no white space: trimming leaves it as it is. -/
theorem TrimSpace_of_splits (s : String) (name n m : List Char) (h : SplitsAs s.data name n m) :
    TrimSpace s = s := by
  have hall := mem_splitsAs _ _ _ _ h
  apply TrimSpace_eq_self
  · intro c hc
    have := hall c (List.mem_of_mem_head? hc)
    exact isSpace_eq_false c this.1 this.2
  · intro c hc
    have := hall c (List.mem_of_mem_getLast? hc)
    exact isSpace_eq_false c this.1 this.2

/-- A string of the grammar is ASCII: it has as many bytes as runes. -/
theorem len_of_splits (s : String) (name n m : List Char) (h : SplitsAs s.data name n m) :
    len s = s.length := by
  have hall := mem_splitsAs _ _ _ _ h
  have key : ∀ l : List Char, (∀ c ∈ l, 33 ≤ c.toNat ∧ c.toNat ≤ 126) →
      (l.map runeLen).sum = l.length := by
    intro l
    induction l with
    | nil => intro _; rfl
    | cons c cs ih =>
      intro hl
      have hc := hl c (by simp)
      have : runeLen c = 1 := by
        unfold runeLen
        rw [if_pos (by omega)]
      simp only [List.map_cons, List.sum_cons, List.length_cons, this]
      rw [ih (fun x hx => hl x (by simp [hx]))]
      omega
  exact key s.data hall

theorem scanDigits_digits : ∀ (l : List Char) (acc count : Nat),
    (∀ c ∈ l, inRange '0' '9' c = true) →
    scanDigits l acc count =
      (acc * 10 ^ l.length + Nat.ofDigits 10 (l.reverse.map (fun c => c.toNat - '0'.toNat)),
        count + l.length, []) := by
  intro l
  induction l with
  | nil => intro acc count _; simp [scanDigits]
  | cons c cs ih =>
    intro acc count h
    have hc : '0' ≤ c ∧ c ≤ '9' := (inRange_iff _ _ _).1 (h c (by simp))
    have hd : digitVal c = some (c.toNat - '0'.toNat) := by simp [digitVal, hc]
    simp only [scanDigits, hd]
    rw [ih _ _ (fun x hx => h x (by simp [hx]))]
    simp only [List.reverse_cons, List.map_append, List.map_cons, List.map_nil,
      Nat.ofDigits_append, Nat.ofDigits_singleton, List.length_map, List.length_reverse,
      List.length_cons, Prod.mk.injEq, and_true]
    constructor
    · ring
    · omega

theorem scanSign_digit (d : Char) (ds : List Char) (h : inRange '1' '9' d = true) :
    scanSign (d :: ds) = (false, d :: ds) := by
  have hb := toNat_of_inRange _ _ _ h
  have e1 : '1'.toNat = 49 := rfl
  have h1 : d ≠ '+' := by rintro rfl; revert hb; decide
  have h2 : d ≠ '-' := by rintro rfl; revert hb; decide
  unfold scanSign
  split
  · rename_i heq; simp only [List.cons.injEq] at heq; exact absurd heq.1 h1
  · rename_i heq; simp only [List.cons.injEq] at heq; exact absurd heq.1 h2
  · rfl

theorem headTail_digits (n : List Char) (h : HeadTail '1' '9' '0' '9' n) :
    ∀ c ∈ n, inRange '0' '9' c = true := by
  obtain ⟨d, ds, rfl, hd, hds⟩ := h
  intro c hc
  rcases List.mem_cons.1 hc with rfl | hc
  · have := (inRange_iff _ _ _).1 hd
    exact (inRange_iff _ _ _).2 ⟨Char.le_trans (by decide) this.1, this.2⟩
  · exact hds c hc

/-- Converting a numeral of the grammar never fails and gives its value. -/
theorem SetString10_numeral (n : List Char) (h : HeadTail '1' '9' '0' '9' n) :
    SetString10 (String.mk n) = some (decimalValue (String.mk n) : Int) := by
  have hall := headTail_digits n h
  obtain ⟨d, ds, rfl, hd, hds⟩ := h
  unfold SetString10
  simp only [scanSign_digit d ds hd, scanDigits_digits (d :: ds) 0 0 hall]
  simp [decimalValue, digitsOf]

/-! ## The default parser, case by case -/

theorem parse_ok {ε : Type} (E : ε) (s : String) (name n m : List Char)
    (hlen : len (TrimSpace s) ≤ 48) (h : SplitsAs (TrimSpace s).data name n m) :
    DefaultParseChainID E s = (some (decimalValue (String.mk n) : Int), none) := by
  have hname : String.mk name ≠ "" := by
    obtain ⟨-, ⟨a, as, rfl, -⟩, -⟩ := h
    simp [String.ext_iff]
  unfold DefaultParseChainID
  simp only [if_neg (Nat.not_lt.2 hlen), FindStringSubmatch_of_splits _ name n m h]
  simp [hname, SetString10_numeral n h.2.2.1]

theorem parse_long {ε : Type} (E : ε) (s : String) (hlen : 48 < len (TrimSpace s)) :
    DefaultParseChainID E s =
      (none, some (Wrapf E ("chain-id '" ++ TrimSpace s ++ "' cannot exceed 48 chars"))) := by
  unfold DefaultParseChainID
  simp only [gt_iff_lt, hlen, if_true]

theorem parse_nomatch {ε : Type} (E : ε) (s : String) (hlen : len (TrimSpace s) ≤ 48)
    (h : ethermintChainID.MatchString (TrimSpace s) = false) :
    DefaultParseChainID E s = (none, some (Wrapf E (TrimSpace s ++ ": " ++ "[]"))) := by
  unfold DefaultParseChainID
  simp only [if_neg (Nat.not_lt.2 hlen), FindStringSubmatch_eq_none _ h]
  simp [fmtStrings]

/-- The default parser returns no error exactly on the trimmed inputs of the
grammar within the length bound; any error wraps `ErrInvalidChainID`. -/
theorem parse_cases {ε : Type} (E : ε) (s : String) :
    (len (TrimSpace s) ≤ 48 ∧ ∃ name n m, SplitsAs (TrimSpace s).data name n m ∧
        DefaultParseChainID E s = (some (decimalValue (String.mk n) : Int), none)) ∨
    (¬ (len (TrimSpace s) ≤ 48 ∧ InGrammar (TrimSpace s)) ∧
        ∃ msg, DefaultParseChainID E s = (none, some (Wrapf E msg))) := by
  by_cases hlen : len (TrimSpace s) ≤ 48
  · by_cases hm : ethermintChainID.MatchString (TrimSpace s) = true
    · obtain ⟨name, n, m, h⟩ := (MatchString_iff _).1 hm
      exact Or.inl ⟨hlen, name, n, m, h, parse_ok E s name n m hlen h⟩
    · right
      refine ⟨?_, _, parse_nomatch E s hlen (by simpa using hm)⟩
      rintro ⟨-, hg⟩
      exact hm ((MatchString_iff _).2 ((inGrammar_iff _).1 hg))
  · right
    exact ⟨fun h => hlen h.1, _, parse_long E s (by omega)⟩

/-! ## The default validator -/

theorem valid_iff_splits (s : String) :
    DefaultValidChainID s = true ↔ len s ≤ 48 ∧ ∃ name n m, SplitsAs s.data name n m := by
  unfold DefaultValidChainID
  by_cases hlen : len s > 48
  · simp only [hlen, if_true]
    constructor
    · intro h; cases h
    · intro h; omega
  · simp only [hlen, if_false, MatchString_iff]
    constructor
    · intro h; exact ⟨by omega, h⟩
    · intro h; exact h.2

theorem parse_noerr_iff {ε : Type} (E : ε) (s : String) :
    (DefaultParseChainID E s).2 = none ↔ len (TrimSpace s) ≤ 48 ∧ InGrammar (TrimSpace s) := by
  rcases parse_cases E s with ⟨hlen, name, n, m, hs, hp⟩ | ⟨hn, msg, hp⟩
  · rw [hp]
    exact ⟨fun _ => ⟨hlen, (inGrammar_iff _).2 ⟨name, n, m, hs⟩⟩, fun _ => rfl⟩
  · rw [hp]
    exact ⟨fun h => (by cases h), fun h => absurd h hn⟩

/-! ## The claims -/

/-- C1: for every string `s`, `DefaultValidChainID s` is true if and only if
`len s ≤ 48` and `s` is exactly `name ++ "_" ++ n ++ "-" ++ m`, where `name`
is a non-empty string of the characters `a`..`z` and `n` and `m` are each a
non-empty string of decimal digits whose first digit is `1`..`9`. -/
theorem DefaultValidChainID_iff_grammar (s : String) :
    DefaultValidChainID s = true ↔
      len s ≤ 48 ∧ ∃ name n m : String, IsName name ∧ IsNumeral n ∧ IsNumeral m ∧
        s = name ++ "_" ++ n ++ "-" ++ m := by
  rw [valid_iff_splits, ← inGrammar_iff]
  rfl

/-- C2, refuted as stated: `"aragonchain_256-1"` is `name_N-M` with `N = 256`
and epoch `M = 1`, within the length bound, and the default parser returns
`256`, not the value `1` of the epoch. -/
theorem DefaultParseChainID_not_epoch :
    TrimSpace "aragonchain_256-1" = "aragonchain" ++ "_" ++ "256" ++ "-" ++ "1" ∧
      IsName "aragonchain" ∧ IsNumeral "256" ∧ IsNumeral "1" ∧
      len (TrimSpace "aragonchain_256-1") ≤ 48 ∧
      DefaultParseChainID () "aragonchain_256-1" = (some 256, none) ∧
      DefaultParseChainID () "aragonchain_256-1" ≠ (some (decimalValue "1" : Int), none) := by
  decide

/-- C2, amended: for every string `s` whose trimmed form is `name_N-M` in the
grammar with length at most 48, `DefaultParseChainID s` succeeds and returns
the value of the EIP-155 number `N` (the decimal between `_` and `-`); the
epoch `M` (the decimal after `-`) is discarded: the result is the same for any
other epoch. -/
theorem DefaultParseChainID_returns_eip155 {ε : Type} (ErrInvalidChainID : ε)
    (s name n m : String) (hs : TrimSpace s = name ++ "_" ++ n ++ "-" ++ m)
    (hname : IsName name) (hn : IsNumeral n) (hm : IsNumeral m)
    (hlen : len (TrimSpace s) ≤ 48) :
    DefaultParseChainID ErrInvalidChainID s = (some (decimalValue n : Int), none) ∧
      ∀ s1 m1 : String, TrimSpace s1 = name ++ "_" ++ n ++ "-" ++ m1 → IsNumeral m1 →
        len (TrimSpace s1) ≤ 48 →
        DefaultParseChainID ErrInvalidChainID s1 = DefaultParseChainID ErrInvalidChainID s := by
  have key : ∀ s1 m1 : String, TrimSpace s1 = name ++ "_" ++ n ++ "-" ++ m1 → IsNumeral m1 →
      len (TrimSpace s1) ≤ 48 →
      DefaultParseChainID ErrInvalidChainID s1 = (some (decimalValue n : Int), none) := by
    intro s1 m1 h1 hm1 hl1
    have hsplit : SplitsAs (TrimSpace s1).data name.data n.data m1.data :=
      ⟨by rw [h1]; simp [String.data_append], (isName_iff name).1 hname,
        (isNumeral_iff n).1 hn, (isNumeral_iff m1).1 hm1⟩
    exact parse_ok ErrInvalidChainID s1 _ _ _ hl1 hsplit
  refine ⟨key s m hs hm hlen, ?_⟩
  intro s1 m1 h1 hm1 hl1
  rw [key s1 m1 h1 hm1 hl1, key s m hs hm hlen]

/-- C2, amended, at `"aragonchain_256-1"`: the parser returns `256`. -/
theorem DefaultParseChainID_returns_eip155_witness :
    DefaultParseChainID () "aragonchain_256-1" = (some (256 : Int), none) :=
  (DefaultParseChainID_returns_eip155 () "aragonchain_256-1" "aragonchain" "256" "1"
    (by decide) (by decide) (by decide) (by decide) (by decide)).1

/-- C3: for every string `s` whose trimmed form is `name_N-M` in the grammar
with length at most 48, `DefaultParseChainID s` succeeds and returns the
integer whose base-10 representation is `N`, the decimal between `_` and `-`. -/
theorem DefaultParseChainID_base10 {ε : Type} (ErrInvalidChainID : ε)
    (s name n m : String) (hs : TrimSpace s = name ++ "_" ++ n ++ "-" ++ m)
    (hname : IsName name) (hn : IsNumeral n) (hm : IsNumeral m)
    (hlen : len (TrimSpace s) ≤ 48) :
    ∃ v : Nat, DefaultParseChainID ErrInvalidChainID s = (some (v : Int), none) ∧
      Nat.digits 10 v = digitsOf n := by
  have hsplit : SplitsAs (TrimSpace s).data name.data n.data m.data :=
    ⟨by rw [hs]; simp [String.data_append], (isName_iff name).1 hname,
      (isNumeral_iff n).1 hn, (isNumeral_iff m).1 hm⟩
  refine ⟨decimalValue n, parse_ok ErrInvalidChainID s _ _ _ hlen hsplit, ?_⟩
  unfold decimalValue
  have hdig := headTail_digits n.data ((isNumeral_iff n).1 hn)
  obtain ⟨d, ds, hd, hd1, -⟩ := (isNumeral_iff n).1 hn
  apply Nat.digits_ofDigits 10 (by omega)
  · intro x hx
    simp only [digitsOf, List.mem_map, List.mem_reverse] at hx
    obtain ⟨c, hc, rfl⟩ := hx
    have := toNat_of_inRange _ _ _ (hdig c hc)
    have e1 : '0'.toNat = 48 := rfl
    have e2 : '9'.toNat = 57 := rfl
    omega
  · intro hne
    have hlast : (digitsOf n).getLast hne = d.toNat - '0'.toNat := by
      simp [digitsOf, hd]
    rw [hlast]
    have := toNat_of_inRange _ _ _ hd1
    have e1 : '1'.toNat = 49 := rfl
    have e2 : '0'.toNat = 48 := rfl
    omega

/-- C3 at the two inputs of the test table: `"ethermint_1-1"` gives `1` and
`"aragonchain_256-1"` gives `256`. -/
theorem DefaultParseChainID_base10_witness :
    (∃ v : Nat, DefaultParseChainID () "ethermint_1-1" = (some (v : Int), none) ∧
        Nat.digits 10 v = digitsOf "1") ∧
      (∃ v : Nat, DefaultParseChainID () "aragonchain_256-1" = (some (v : Int), none) ∧
        Nat.digits 10 v = digitsOf "256") ∧
      DefaultParseChainID () "ethermint_1-1" = (some 1, none) ∧
      DefaultParseChainID () "aragonchain_256-1" = (some 256, none) :=
  ⟨DefaultParseChainID_base10 () "ethermint_1-1" "ethermint" "1" "1"
      (by decide) (by decide) (by decide) (by decide) (by decide),
    DefaultParseChainID_base10 () "aragonchain_256-1" "aragonchain" "256" "1"
      (by decide) (by decide) (by decide) (by decide) (by decide),
    by decide, by decide⟩

/-- C4: for every string `s`, `DefaultParseChainID s` succeeds if and only if
the trimmed `s` has length at most 48 and is in the grammar; in every other
case it returns a nil integer together with an error wrapping
`ErrInvalidChainID`, and no error of another kind is ever produced. -/
theorem DefaultParseChainID_error_kind {ε : Type} (ErrInvalidChainID : ε) (s : String) :
    ((DefaultParseChainID ErrInvalidChainID s).2 = none ↔
        len (TrimSpace s) ≤ 48 ∧ InGrammar (TrimSpace s)) ∧
      ((DefaultParseChainID ErrInvalidChainID s).2 = none →
        (DefaultParseChainID ErrInvalidChainID s).1 ≠ none) ∧
      ∀ e, (DefaultParseChainID ErrInvalidChainID s).2 = some e →
        (DefaultParseChainID ErrInvalidChainID s).1 = none ∧ e.kind = some ErrInvalidChainID := by
  refine ⟨parse_noerr_iff ErrInvalidChainID s, ?_, ?_⟩
  · rcases parse_cases ErrInvalidChainID s with ⟨-, name, n, m, -, hp⟩ | ⟨-, msg, hp⟩
    · rw [hp]; intro _; simp
    · rw [hp]; intro h; cases h
  · intro e he
    rcases parse_cases ErrInvalidChainID s with ⟨-, name, n, m, -, hp⟩ | ⟨-, msg, hp⟩
    · rw [hp] at he; cases he
    · rw [hp] at he ⊢
      simp only [Option.some.injEq] at he
      subst he
      exact ⟨rfl, rfl⟩

/-- C5, refuted as stated: with a leading blank, `" ethermint_1-1"` is
rejected by the default validator and accepted by the default parser. -/
theorem valid_parse_disagree :
    DefaultValidChainID " ethermint_1-1" = false ∧
      (DefaultParseChainID () " ethermint_1-1").2 = none ∧
      ¬ (DefaultValidChainID " ethermint_1-1" = true ↔
        (DefaultParseChainID () " ethermint_1-1").2 = none) := by
  decide

/-- C5, amended: every string the default validator accepts is parsed without
error, and the default parser returns no error on `s` if and only if the
default validator accepts the trimmed `s`. -/
theorem DefaultValidChainID_lockstep_trimmed {ε : Type} (ErrInvalidChainID : ε) (s : String) :
    (DefaultValidChainID s = true → (DefaultParseChainID ErrInvalidChainID s).2 = none) ∧
      ((DefaultParseChainID ErrInvalidChainID s).2 = none ↔
        DefaultValidChainID (TrimSpace s) = true) := by
  constructor
  · intro hv
    obtain ⟨hlen, name, n, m, h⟩ := (valid_iff_splits s).1 hv
    have ht := TrimSpace_of_splits s name n m h
    rw [parse_noerr_iff, ht]
    exact ⟨hlen, (inGrammar_iff s).2 ⟨name, n, m, h⟩⟩
  · rw [parse_noerr_iff, valid_iff_splits, inGrammar_iff]

/-- C6: for every string `s` accepted by `DefaultValidChainID`,
`DefaultParseChainID s` returns no error and a non-negative integer. -/
theorem DefaultParseChainID_of_valid {ε : Type} (ErrInvalidChainID : ε) (s : String)
    (h : DefaultValidChainID s = true) :
    ∃ v : Int, DefaultParseChainID ErrInvalidChainID s = (some v, none) ∧ 0 ≤ v := by
  obtain ⟨hlen, name, n, m, hs⟩ := (valid_iff_splits s).1 h
  have ht := TrimSpace_of_splits s name n m hs
  refine ⟨(decimalValue (String.mk n) : Int), ?_, Int.ofNat_nonneg _⟩
  exact parse_ok ErrInvalidChainID s name n m (by rw [ht]; exact hlen) (by rw [ht]; exact hs)

/-- C6 at `"ethermint_1-1"`. -/
theorem DefaultParseChainID_of_valid_witness :
    DefaultValidChainID "ethermint_1-1" = true ∧
      ∃ v : Int, DefaultParseChainID () "ethermint_1-1" = (some v, none) ∧ 0 ≤ v :=
  ⟨by decide, DefaultParseChainID_of_valid () "ethermint_1-1" (by decide)⟩

/-- C7: for every string `s` with no white space at its start and none at its
end, if `DefaultParseChainID s` returns no error then `DefaultValidChainID s`
is true. -/
theorem DefaultValidChainID_of_parse {ε : Type} (ErrInvalidChainID : ε) (s : String)
    (hhead : ∀ c ∈ s.data.head?, isSpace c = false)
    (hlast : ∀ c ∈ s.data.getLast?, isSpace c = false)
    (h : (DefaultParseChainID ErrInvalidChainID s).2 = none) :
    DefaultValidChainID s = true := by
  have ht := TrimSpace_eq_self s hhead hlast
  rw [parse_noerr_iff, ht, inGrammar_iff] at h
  exact (valid_iff_splits s).2 h

/-- C7 at `"ethermint_1-1"`. -/
theorem DefaultValidChainID_of_parse_witness :
    (DefaultParseChainID () "ethermint_1-1").2 = none ∧
      DefaultValidChainID "ethermint_1-1" = true :=
  ⟨by decide, DefaultValidChainID_of_parse () "ethermint_1-1" (by decide) (by decide) (by decide)⟩

/-- C8: for every string `s` of the grammar, `DefaultValidChainID s` is true
exactly when `len s ≤ 48`, and `DefaultParseChainID s` succeeds exactly when
`len s ≤ 48`. -/
theorem length_guard_on_grammar {ε : Type} (ErrInvalidChainID : ε) (s : String)
    (h : InGrammar s) :
    (DefaultValidChainID s = true ↔ len s ≤ 48) ∧
      ((DefaultParseChainID ErrInvalidChainID s).2 = none ↔ len s ≤ 48) := by
  have hsp := (inGrammar_iff s).1 h
  obtain ⟨name, n, m, hs⟩ := hsp
  have ht := TrimSpace_of_splits s name n m hs
  constructor
  · rw [valid_iff_splits]
    exact ⟨fun hv => hv.1, fun hl => ⟨hl, name, n, m, hs⟩⟩
  · rw [parse_noerr_iff, ht]
    exact ⟨fun hv => hv.1, fun hl => ⟨hl, h⟩⟩

/-- C8 at a string of the grammar of length 48, accepted by both defaults, and
at `"ethermint_"` followed by forty `1`s and `"-1"`, rejected by both. -/
theorem length_guard_on_grammar_witness :
    (InGrammar "ethermint_111111111111111111111111111111111111-1" ∧
      len "ethermint_111111111111111111111111111111111111-1" = 48 ∧
      DefaultValidChainID "ethermint_111111111111111111111111111111111111-1" = true ∧
      (DefaultParseChainID () "ethermint_111111111111111111111111111111111111-1").2 = none) ∧
    (InGrammar "ethermint_1111111111111111111111111111111111111111-1" ∧
      len "ethermint_1111111111111111111111111111111111111111-1" = 52 ∧
      DefaultValidChainID "ethermint_1111111111111111111111111111111111111111-1" = false ∧
      (DefaultParseChainID () "ethermint_1111111111111111111111111111111111111111-1").2
        ≠ none) := by
  have g48 : InGrammar "ethermint_111111111111111111111111111111111111-1" :=
    ⟨"ethermint", "111111111111111111111111111111111111", "1", by decide, by decide,
      by decide, by decide⟩
  have g52 : InGrammar "ethermint_1111111111111111111111111111111111111111-1" :=
    ⟨"ethermint", "1111111111111111111111111111111111111111", "1", by decide, by decide,
      by decide, by decide⟩
  have h48 := length_guard_on_grammar () _ g48
  have h52 := length_guard_on_grammar () _ g52
  have l48 : len "ethermint_111111111111111111111111111111111111-1" = 48 := by decide
  have l52 : len "ethermint_1111111111111111111111111111111111111111-1" = 52 := by decide
  refine ⟨⟨g48, l48, h48.1.2 (by omega), h48.2.2 (by omega)⟩, g52, l52, ?_, ?_⟩
  · cases hv : DefaultValidChainID "ethermint_1111111111111111111111111111111111111111-1" with
    | false => rfl
    | true => have := h52.1.1 hv; omega
  · intro hp
    have := h52.2.1 hp
    omega

/-- C9: whatever the state, after `SetValidChainIDFunc g` the call
`IsValidChainID s` returns exactly `g s`, and after `SetParseChainIDFunc f`
the call `ParseChainID s` returns exactly `f s`, value and error as `f` gave
them, for arbitrary `f` and `g`. -/
theorem override_is_called {ε : Type} (st : Registry ε) (g : String → Bool)
    (f : String → ParseResult ε) (s : String) :
    (IsValidChainID s (SetValidChainIDFunc g st)).1 = g s ∧
      (ParseChainID s (SetParseChainIDFunc f st)).1 = f s ∧
      (IsValidChainID s (SetValidChainIDFunc g (SetParseChainIDFunc f st))).1 = g s ∧
      (ParseChainID s (SetParseChainIDFunc f (SetValidChainIDFunc g st))).1 = f s :=
  ⟨rfl, rfl, rfl, rfl⟩

/-- C10: in the initial state, before any setter is called, `IsValidChainID s`
is `DefaultValidChainID s` and `ParseChainID s` is `DefaultParseChainID s`,
for every string `s`. -/
theorem initial_state_defaults {ε : Type} (ErrInvalidChainID : ε) (s : String) :
    (IsValidChainID s (Registry.initial ErrInvalidChainID)).1 = DefaultValidChainID s ∧
      (ParseChainID s (Registry.initial ErrInvalidChainID)).1
        = DefaultParseChainID ErrInvalidChainID s :=
  ⟨rfl, rfl⟩

/-! ## The two ends and the separators of an accepted string -/

theorem lower_of_headTail (name : List Char) (h : HeadTail 'a' 'z' 'a' 'z' name) :
    ∀ c ∈ name, inRange 'a' 'z' c = true := by
  obtain ⟨a, as, rfl, ha, has⟩ := h
  intro c hc
  rcases List.mem_cons.1 hc with rfl | hc
  · exact ha
  · exact has c hc

theorem splits_head (l name n m : List Char) (h : SplitsAs l name n m) :
    ∀ c ∈ l.head?, inRange 'a' 'z' c = true := by
  obtain ⟨rfl, ⟨a, as, rfl, ha, -⟩, -, -⟩ := h
  intro c hc
  simp only [List.cons_append, List.head?_cons, Option.mem_def, Option.some.injEq] at hc
  subst hc
  exact ha

theorem splits_last (l name n m : List Char) (h : SplitsAs l name n m) :
    ∀ c ∈ l.getLast?, inRange '0' '9' c = true := by
  have hm := headTail_digits m h.2.2.2
  obtain ⟨rfl, -, -, ⟨e, es, rfl, -, -⟩⟩ := h
  intro c hc
  have e1 : name ++ '_' :: (n ++ '-' :: e :: es) = (name ++ '_' :: (n ++ ['-'])) ++ (e :: es) := by
    simp
  rw [e1, List.getLast?_append_of_ne_nil _ (by simp)] at hc
  exact hm c (List.mem_of_mem_getLast? hc)

theorem not_mem_of_range (x : Char) (lo hi : Char) (l : List Char)
    (h : ∀ c ∈ l, inRange lo hi c = true) (hx : inRange lo hi x = false) : x ∉ l := by
  intro hmem
  rw [h x hmem] at hx
  cases hx

/-- C11: matching is anchored at both ends: for every string `s` and
character `c`, if `c` is not a decimal digit then `s` followed by `c` is
rejected by `DefaultValidChainID`, and if `c` is not a letter `a`..`z` then
`c` followed by `s` is rejected. -/
theorem DefaultValidChainID_anchored (s : String) (c : Char) :
    (¬ ('0' ≤ c ∧ c ≤ '9') → DefaultValidChainID (s ++ String.singleton c) = false) ∧
      (¬ ('a' ≤ c ∧ c ≤ 'z') → DefaultValidChainID (String.singleton c ++ s) = false) := by
  constructor
  · intro hc
    cases hv : DefaultValidChainID (s ++ String.singleton c) with
    | false => rfl
    | true =>
      obtain ⟨-, name, n, m, h⟩ := (valid_iff_splits _).1 hv
      have := splits_last _ _ _ _ h c (by simp [String.singleton])
      exact absurd ((inRange_iff _ _ _).1 this) hc
  · intro hc
    cases hv : DefaultValidChainID (String.singleton c ++ s) with
    | false => rfl
    | true =>
      obtain ⟨-, name, n, m, h⟩ := (valid_iff_splits _).1 hv
      have := splits_head _ _ _ _ h c (by simp [String.singleton])
      exact absurd ((inRange_iff _ _ _).1 this) hc

/-- C11 at `"xethermint_1-1x"`: it contains the valid `"ethermint_1-1"` and is
rejected, its last character `x` being no digit. -/
theorem DefaultValidChainID_anchored_witness :
    DefaultValidChainID "ethermint_1-1" = true ∧
      "xethermint_1-1" ++ String.singleton 'x' = "xethermint_1-1x" ∧
      DefaultValidChainID ("xethermint_1-1" ++ String.singleton 'x') = false ∧
      DefaultValidChainID (String.singleton 'X' ++ "ethermint_1-1") = false :=
  ⟨by decide, by decide,
    (DefaultValidChainID_anchored "xethermint_1-1" 'x').1 (by decide),
    (DefaultValidChainID_anchored "ethermint_1-1" 'X').2 (by decide)⟩

/-- C12: every string accepted by `DefaultValidChainID` contains exactly one
`_` and exactly one `-`, the `_` before the `-`; every character before the
`_` is a letter `a`..`z` and every other character is a decimal digit. Hence
every character of an accepted string is a lowercase letter, a digit, `_` or
`-`. -/
theorem DefaultValidChainID_shape (s : String) (h : DefaultValidChainID s = true) :
    s.data.count '_' = 1 ∧ s.data.count '-' = 1 ∧
      (∃ pre mid post : List Char, s.data = pre ++ '_' :: (mid ++ '-' :: post) ∧
        (∀ c ∈ pre, 'a' ≤ c ∧ c ≤ 'z') ∧ (∀ c ∈ mid, '0' ≤ c ∧ c ≤ '9') ∧
        (∀ c ∈ post, '0' ≤ c ∧ c ≤ '9')) ∧
      ∀ c ∈ s.data, ('a' ≤ c ∧ c ≤ 'z') ∨ ('0' ≤ c ∧ c ≤ '9') ∨ c = '_' ∨ c = '-' := by
  obtain ⟨-, name, n, m, hs⟩ := (valid_iff_splits s).1 h
  have hname := lower_of_headTail name hs.2.1
  have hn := headTail_digits n hs.2.2.1
  have hm := headTail_digits m hs.2.2.2
  have hdata := hs.1
  have u1 : '_' ∉ name := not_mem_of_range _ _ _ _ hname (by decide)
  have u2 : '_' ∉ n := not_mem_of_range _ _ _ _ hn (by decide)
  have u3 : '_' ∉ m := not_mem_of_range _ _ _ _ hm (by decide)
  have d1 : '-' ∉ name := not_mem_of_range _ _ _ _ hname (by decide)
  have d2 : '-' ∉ n := not_mem_of_range _ _ _ _ hn (by decide)
  have d3 : '-' ∉ m := not_mem_of_range _ _ _ _ hm (by decide)
  refine ⟨?_, ?_, ⟨name, n, m, hdata, ?_, ?_, ?_⟩, ?_⟩
  · rw [hdata]
    simp [List.count_append, List.count_cons, List.count_eq_zero.2 u1, List.count_eq_zero.2 u2,
      List.count_eq_zero.2 u3]
  · rw [hdata]
    simp [List.count_append, List.count_cons, List.count_eq_zero.2 d1, List.count_eq_zero.2 d2,
      List.count_eq_zero.2 d3]
  · exact fun c hc => (inRange_iff _ _ _).1 (hname c hc)
  · exact fun c hc => (inRange_iff _ _ _).1 (hn c hc)
  · exact fun c hc => (inRange_iff _ _ _).1 (hm c hc)
  · intro c hc
    rw [hdata] at hc
    simp only [List.mem_append, List.mem_cons] at hc
    rcases hc with hc | rfl | hc | rfl | hc
    · exact Or.inl ((inRange_iff _ _ _).1 (hname c hc))
    · exact Or.inr (Or.inr (Or.inl rfl))
    · exact Or.inr (Or.inl ((inRange_iff _ _ _).1 (hn c hc)))
    · exact Or.inr (Or.inr (Or.inr rfl))
    · exact Or.inr (Or.inl ((inRange_iff _ _ _).1 (hm c hc)))

/-- C12 at `"ethermint_1-1"`, with the rejected inputs of the test table: a
double dash, a double underscore, upper case, special characters, a blank. -/
theorem DefaultValidChainID_shape_witness :
    (DefaultValidChainID "ethermint_1-1" = true ∧
      "ethermint_1-1".data.count '_' = 1 ∧ "ethermint_1-1".data.count '-' = 1) ∧
      DefaultValidChainID "aragonchain-1-1" = false ∧
      DefaultValidChainID "aragonchain_1_1" = false ∧
      DefaultValidChainID "ETHERMINT_1-1" = false ∧
      DefaultValidChainID "Ethermint_1-1" = false ∧
      DefaultValidChainID "$&*#!_1-1" = false ∧
      DefaultValidChainID " " = false :=
  ⟨⟨by decide, (DefaultValidChainID_shape "ethermint_1-1" (by decide)).1,
      (DefaultValidChainID_shape "ethermint_1-1" (by decide)).2.1⟩,
    by decide, by decide, by decide, by decide, by decide, by decide⟩

/-! ## The split at the separators is unique -/

theorem append_cons_unique (x : Char) :
    ∀ (l1 l2 r1 r2 : List Char), x ∉ l1 → x ∉ l2 → l1 ++ x :: r1 = l2 ++ x :: r2 →
      l1 = l2 ∧ r1 = r2 := by
  intro l1
  induction l1 with
  | nil =>
    intro l2 r1 r2 _ h2 h
    cases l2 with
    | nil => simpa using h
    | cons b bs =>
      simp only [List.nil_append, List.cons_append, List.cons.injEq] at h
      exact absurd (by simp [h.1]) h2
  | cons a as ih =>
    intro l2 r1 r2 h1 h2 h
    cases l2 with
    | nil =>
      simp only [List.nil_append, List.cons_append, List.cons.injEq] at h
      exact absurd (by simp [h.1]) h1
    | cons b bs =>
      simp only [List.cons_append, List.cons.injEq] at h
      obtain ⟨hl, hr⟩ := ih bs r1 r2 (fun hx => h1 (by simp [hx])) (fun hx => h2 (by simp [hx])) h.2
      exact ⟨by rw [h.1, hl], hr⟩

/-- A string `name_n-m` with lowercase `name` and digits `n`, `m` is in the
grammar only with these three parts. -/
theorem splits_unique (name n m name1 n1 m1 : List Char)
    (hname : ∀ c ∈ name, inRange 'a' 'z' c = true) (hn : ∀ c ∈ n, inRange '0' '9' c = true)
    (h : SplitsAs (name ++ '_' :: (n ++ '-' :: m)) name1 n1 m1) :
    name1 = name ∧ n1 = n ∧ m1 = m := by
  have h1 := lower_of_headTail name1 h.2.1
  have h2 := headTail_digits n1 h.2.2.1
  obtain ⟨e1, e2⟩ := append_cons_unique '_' name name1 _ _
    (not_mem_of_range _ _ _ _ hname (by decide)) (not_mem_of_range _ _ _ _ h1 (by decide)) h.1
  obtain ⟨e3, e4⟩ := append_cons_unique '-' n n1 _ _
    (not_mem_of_range _ _ _ _ hn (by decide)) (not_mem_of_range _ _ _ _ h2 (by decide)) e2
  exact ⟨e1.symm, e3.symm, e4.symm⟩

theorem headTail_not_zero (n : List Char) (h : HeadTail '1' '9' '0' '9' n) :
    n ≠ [] ∧ n.head? ≠ some '0' := by
  obtain ⟨d, ds, rfl, hd, -⟩ := h
  refine ⟨by simp, ?_⟩
  intro h0
  simp only [List.head?_cons, Option.some.injEq] at h0
  subst h0
  revert hd
  decide

/-- C13: leading zeros are rejected in both numeric components: for every
lowercase `name` and digit strings `n`, `m`, if `n` or `m` begins with `0` or
is empty, then `name ++ "_" ++ n ++ "-" ++ m` is rejected by
`DefaultValidChainID` and `DefaultParseChainID` returns an error on it. -/
theorem leading_zero_rejected {ε : Type} (ErrInvalidChainID : ε) (name n m : String)
    (hname : ∀ c ∈ name.data, 'a' ≤ c ∧ c ≤ 'z') (hn : ∀ c ∈ n.data, '0' ≤ c ∧ c ≤ '9')
    (hm : ∀ c ∈ m.data, '0' ≤ c ∧ c ≤ '9')
    (hz : n.data.head? = some '0' ∨ m.data.head? = some '0' ∨ n = "" ∨ m = "") :
    DefaultValidChainID (name ++ "_" ++ n ++ "-" ++ m) = false ∧
      (DefaultParseChainID ErrInvalidChainID (name ++ "_" ++ n ++ "-" ++ m)).2 ≠ none := by
  have hdata : (name ++ "_" ++ n ++ "-" ++ m).data
      = name.data ++ '_' :: (n.data ++ '-' :: m.data) := by
    simp [String.data_append]
  have hname1 : ∀ c ∈ name.data, inRange 'a' 'z' c = true :=
    fun c hc => (inRange_iff _ _ _).2 (hname c hc)
  have hn1 : ∀ c ∈ n.data, inRange '0' '9' c = true :=
    fun c hc => (inRange_iff _ _ _).2 (hn c hc)
  have hm1 : ∀ c ∈ m.data, inRange '0' '9' c = true :=
    fun c hc => (inRange_iff _ _ _).2 (hm c hc)
  have hno : ¬ ∃ name1 n1 m1, SplitsAs (name ++ "_" ++ n ++ "-" ++ m).data name1 n1 m1 := by
    rintro ⟨name1, n1, m1, h⟩
    rw [hdata] at h
    obtain ⟨-, e2, e3⟩ := splits_unique _ _ _ _ _ _ hname1 hn1 h
    have z2 := headTail_not_zero n1 h.2.2.1
    have z3 := headTail_not_zero m1 h.2.2.2
    rw [e2] at z2
    rw [e3] at z3
    rcases hz with hz | hz | hz | hz
    · exact z2.2 hz
    · exact z3.2 hz
    · exact z2.1 (by rw [hz])
    · exact z3.1 (by rw [hz])
  have hrange : ∀ c ∈ (name ++ "_" ++ n ++ "-" ++ m).data, 33 ≤ c.toNat ∧ c.toNat ≤ 126 := by
    intro c hc
    rw [hdata] at hc
    simp only [List.mem_append, List.mem_cons] at hc
    have e1 : 'a'.toNat = 97 := rfl
    have e2 : 'z'.toNat = 122 := rfl
    have e3 : '0'.toNat = 48 := rfl
    have e4 : '9'.toNat = 57 := rfl
    rcases hc with hc | rfl | hc | rfl | hc
    · have := toNat_of_inRange _ _ _ (hname1 c hc); omega
    · decide
    · have := toNat_of_inRange _ _ _ (hn1 c hc); omega
    · decide
    · have := toNat_of_inRange _ _ _ (hm1 c hc); omega
  have htrim : TrimSpace (name ++ "_" ++ n ++ "-" ++ m) = name ++ "_" ++ n ++ "-" ++ m := by
    apply TrimSpace_eq_self
    · intro c hc
      have := hrange c (List.mem_of_mem_head? hc)
      exact isSpace_eq_false c this.1 this.2
    · intro c hc
      have := hrange c (List.mem_of_mem_getLast? hc)
      exact isSpace_eq_false c this.1 this.2
  constructor
  · cases hv : DefaultValidChainID (name ++ "_" ++ n ++ "-" ++ m) with
    | false => rfl
    | true => exact absurd ((valid_iff_splits _).1 hv).2 hno
  · intro hp
    rw [parse_noerr_iff, htrim, inGrammar_iff] at hp
    exact hno hp.2

/-- C13 at `"ethermint_001-1"`, and at an epoch with a leading zero and an
empty epoch. -/
theorem leading_zero_rejected_witness :
    (DefaultValidChainID ("ethermint" ++ "_" ++ "001" ++ "-" ++ "1") = false ∧
      (DefaultParseChainID () ("ethermint" ++ "_" ++ "001" ++ "-" ++ "1")).2 ≠ none) ∧
    (DefaultValidChainID ("ethermint" ++ "_" ++ "1" ++ "-" ++ "01") = false ∧
      (DefaultParseChainID () ("ethermint" ++ "_" ++ "1" ++ "-" ++ "01")).2 ≠ none) ∧
    (DefaultValidChainID ("ethermint" ++ "_" ++ "" ++ "-" ++ "") = false ∧
      (DefaultParseChainID () ("ethermint" ++ "_" ++ "" ++ "-" ++ "")).2 ≠ none) :=
  ⟨leading_zero_rejected () "ethermint" "001" "1" (by decide) (by decide) (by decide)
      (by decide),
    leading_zero_rejected () "ethermint" "1" "01" (by decide) (by decide) (by decide)
      (by decide),
    leading_zero_rejected () "ethermint" "" "" (by decide) (by decide) (by decide)
      (by decide)⟩

/-! ## Trimming -/

theorem rdropWhile_append_of_pos (p : Char → Bool) (y w : List Char)
    (hw : ∀ c ∈ w, p c = true) : (y ++ w).rdropWhile p = y.rdropWhile p := by
  unfold List.rdropWhile
  rw [List.reverse_append, List.dropWhile_append_of_pos]
  intro a ha
  exact hw a (List.mem_reverse.1 ha)

theorem dropWhile_rdropWhile_dropWhile (p : Char → Bool) (l : List Char) :
    ((l.dropWhile p).rdropWhile p).dropWhile p = (l.dropWhile p).rdropWhile p := by
  have hpre := List.rdropWhile_prefix p (l.dropWhile p)
  cases hy : l.dropWhile p with
  | nil => simp [List.rdropWhile]
  | cons a t =>
    have ha : p a = false := by
      have := List.head_dropWhile_not p l (by rw [hy]; simp)
      simpa [hy] using this
    rw [hy] at hpre
    rcases List.prefix_cons_iff.1 hpre with h0 | ⟨z, hz, -⟩
    · rw [h0]; rfl
    · rw [hz]
      exact List.dropWhile_cons_of_neg (by simp [ha])

theorem trim_pad (p : Char → Bool) (w1 l w2 : List Char) (h1 : ∀ c ∈ w1, p c = true)
    (h2 : ∀ c ∈ w2, p c = true) :
    ((w1 ++ l ++ w2).dropWhile p).rdropWhile p = (l.dropWhile p).rdropWhile p := by
  rw [List.append_assoc, List.dropWhile_append_of_pos h1, List.dropWhile_append]
  by_cases hemp : (l.dropWhile p).isEmpty = true
  · rw [if_pos hemp]
    have e1 : l.dropWhile p = [] := List.isEmpty_iff.1 hemp
    have e2 : w2.dropWhile p = [] := List.dropWhile_eq_nil_iff.2 h2
    rw [e1, e2]
  · rw [if_neg hemp]
    exact rdropWhile_append_of_pos p _ w2 h2

theorem TrimSpace_idem (s : String) : TrimSpace (TrimSpace s) = TrimSpace s := by
  unfold TrimSpace
  congr 1
  simp only
  rw [dropWhile_rdropWhile_dropWhile, List.rdropWhile_idempotent]

theorem TrimSpace_pad (w1 s w2 : String) (h1 : ∀ c ∈ w1.data, isSpace c = true)
    (h2 : ∀ c ∈ w2.data, isSpace c = true) : TrimSpace (w1 ++ s ++ w2) = TrimSpace s := by
  unfold TrimSpace
  congr 1
  simp only [String.data_append]
  exact trim_pad isSpace _ _ _ h1 h2

/-- The default parser looks at the trimmed input only. -/
theorem parse_congr {ε : Type} (E : ε) (a b : String) (h : TrimSpace a = TrimSpace b) :
    DefaultParseChainID E a = DefaultParseChainID E b := by
  unfold DefaultParseChainID
  simp only [h]

/-- C14: `DefaultParseChainID` is invariant under surrounding white space: for
every string `s` and all strings `w1`, `w2` of white space only,
`DefaultParseChainID (w1 ++ s ++ w2)` returns what
`DefaultParseChainID (TrimSpace s)` returns, integer and error alike; in
particular `DefaultParseChainID s` and `DefaultParseChainID (TrimSpace s)`
agree. -/
theorem DefaultParseChainID_trim_invariant {ε : Type} (ErrInvalidChainID : ε)
    (s w1 w2 : String) (h1 : ∀ c ∈ w1.data, isSpace c = true)
    (h2 : ∀ c ∈ w2.data, isSpace c = true) :
    DefaultParseChainID ErrInvalidChainID (w1 ++ s ++ w2)
        = DefaultParseChainID ErrInvalidChainID (TrimSpace s) ∧
      DefaultParseChainID ErrInvalidChainID s
        = DefaultParseChainID ErrInvalidChainID (TrimSpace s) := by
  constructor
  · apply parse_congr
    rw [TrimSpace_pad w1 s w2 h1 h2, TrimSpace_idem]
  · apply parse_congr
    rw [TrimSpace_idem]

/-- C14 at `"ethermint_1-1"` between blanks, tabs and a line feed, and at an
input that fails. -/
theorem DefaultParseChainID_trim_invariant_witness :
    (DefaultParseChainID () (" \t" ++ " ethermint_1-1" ++ "\n ")
        = DefaultParseChainID () (TrimSpace " ethermint_1-1") ∧
      DefaultParseChainID () " ethermint_1-1"
        = DefaultParseChainID () (TrimSpace " ethermint_1-1")) ∧
      DefaultParseChainID () (" \t" ++ " ethermint_1-1" ++ "\n ") = (some 1, none) ∧
      (DefaultParseChainID () (" " ++ "ethermint 1-1" ++ " ")
        = DefaultParseChainID () (TrimSpace "ethermint 1-1") ∧
      DefaultParseChainID () "ethermint 1-1"
        = DefaultParseChainID () (TrimSpace "ethermint 1-1")) :=
  ⟨DefaultParseChainID_trim_invariant () " ethermint_1-1" " \t" "\n " (by decide) (by decide),
    by decide,
    DefaultParseChainID_trim_invariant () "ethermint 1-1" " " " " (by decide) (by decide)⟩

/-- C15: `IsValidChainID` and `ParseChainID` leave both function variables as
they were, so with no setter call in between a second call, whatever calls
came before it, returns what the first returned. -/
theorem dispatch_keeps_state {ε : Type} (st : Registry ε) (s t : String) :
    (IsValidChainID s st).2 = st ∧ (ParseChainID s st).2 = st ∧
      (IsValidChainID s (IsValidChainID s st).2).1 = (IsValidChainID s st).1 ∧
      (ParseChainID s (ParseChainID s st).2).1 = (ParseChainID s st).1 ∧
      (IsValidChainID s (ParseChainID t st).2).1 = (IsValidChainID s st).1 ∧
      (ParseChainID s (IsValidChainID t st).2).1 = (ParseChainID s st).1 :=
  ⟨rfl, rfl, rfl, rfl, rfl, rfl⟩

/-! ## The error messages of the default parser -/

/-- An error of the default parser is one of two: too long, or no match. -/
theorem parse_error_msgs {ε : Type} (E : ε) (s : String) (e : GoError ε)
    (h : (DefaultParseChainID E s).2 = some e) :
    e = Wrapf E ("chain-id '" ++ TrimSpace s ++ "' cannot exceed 48 chars") ∨
      e = Wrapf E (TrimSpace s ++ ": " ++ "[]") := by
  by_cases hlen : len (TrimSpace s) ≤ 48
  · by_cases hm : ethermintChainID.MatchString (TrimSpace s) = true
    · obtain ⟨name, n, m, hs⟩ := (MatchString_iff _).1 hm
      rw [parse_ok E s name n m hlen hs] at h
      cases h
    · rw [parse_nomatch E s hlen (by simpa using hm)] at h
      simp only [Option.some.injEq] at h
      exact Or.inr h.symm
  · rw [parse_long E s (by omega)] at h
    simp only [Option.some.injEq] at h
    exact Or.inl h.symm

theorem msg_long_ne (a t : String) :
    "chain-id '" ++ a ++ "' cannot exceed 48 chars" ≠
      "epoch " ++ t ++ " must be base-10 integer format" := by
  intro h
  have := congrArg (fun x : String => x.data.head?) h
  simp [String.data_append] at this

theorem msg_nomatch_ne (a t : String) :
    a ++ ": " ++ "[]" ≠ "epoch " ++ t ++ " must be base-10 integer format" := by
  intro h
  have := congrArg (fun x : String => x.data.reverse.head?) h
  simp [String.data_append] at this

/-- C16: the defensive branches of `DefaultParseChainID` are unreachable: for
every string `s` whose trimmed form is in the grammar, the submatch list has
exactly 4 entries with a non-empty first capture, and converting the capture
that is parsed to a base-10 integer does not fail; the error
`must be base-10 integer format` is returned for no input. -/
theorem defensive_branches_unreachable {ε : Type} (ErrInvalidChainID : ε) (s : String) :
    (InGrammar (TrimSpace s) →
        ∃ ms, ethermintChainID.FindStringSubmatch (TrimSpace s) = some ms ∧ ms.length = 4 ∧
          ms.getD 1 "" ≠ "" ∧ SetString10 (ms.getD 2 "") ≠ none) ∧
      ∀ t : String, (DefaultParseChainID ErrInvalidChainID s).2 ≠
        some (Wrapf ErrInvalidChainID ("epoch " ++ t ++ " must be base-10 integer format")) := by
  constructor
  · intro hg
    obtain ⟨name, n, m, hs⟩ := (inGrammar_iff _).1 hg
    refine ⟨_, FindStringSubmatch_of_splits _ name n m hs, rfl, ?_, ?_⟩
    · obtain ⟨-, ⟨a, as, rfl, -⟩, -⟩ := hs
      simp [String.ext_iff]
    · simp [SetString10_numeral n hs.2.2.1]
  · intro t h
    rcases parse_error_msgs ErrInvalidChainID s _ h with h1 | h1
    · simp only [Wrapf, GoError.wrapped.injEq, true_and] at h1
      exact msg_long_ne _ _ h1.symm
    · simp only [Wrapf, GoError.wrapped.injEq, true_and] at h1
      exact msg_nomatch_ne _ _ h1.symm

/-- C16 at `"aragonchain_256-1"`: four entries, the first capture
`aragonchain`, and the capture `256` converts. -/
theorem defensive_branches_unreachable_witness :
    InGrammar (TrimSpace " aragonchain_256-1") ∧
      ethermintChainID.FindStringSubmatch (TrimSpace " aragonchain_256-1")
        = some ["aragonchain_256-1", "aragonchain", "256", "1"] ∧
      SetString10 "256" = some 256 ∧
      ∃ ms, ethermintChainID.FindStringSubmatch (TrimSpace " aragonchain_256-1") = some ms ∧
        ms.length = 4 ∧ ms.getD 1 "" ≠ "" ∧ SetString10 (ms.getD 2 "") ≠ none :=
  have hg : InGrammar (TrimSpace " aragonchain_256-1") :=
    ⟨"aragonchain", "256", "1", by decide, by decide, by decide, by decide⟩
  ⟨hg, by decide, by decide,
    (defensive_branches_unreachable () " aragonchain_256-1").1 hg⟩

/-! ## Sequences of setter calls -/

theorem getLast?_cons_getD {α : Type} (a d : α) (l : List α) :
    ((a :: l).getLast?).getD d = (l.getLast?).getD a := by
  cases l with
  | nil => rfl
  | cons b t =>
    rw [List.getLast?_cons_cons]
    cases h : (b :: t).getLast? with
    | none => simp at h
    | some x => rfl

theorem runCalls_valid {ε : Type} (calls : List (SetterCall ε)) :
    ∀ st : Registry ε,
      (runCalls calls st).validChainIDFunc = (lastValidArg calls).getD st.validChainIDFunc := by
  induction calls with
  | nil => intro st; rfl
  | cons c cs ih =>
    intro st
    have hstep : runCalls (c :: cs) st = runCalls cs (runCall c st) := rfl
    rw [hstep, ih]
    cases c with
    | setValid fn =>
      have : lastValidArg (SetterCall.setValid fn :: cs)
          = (fn :: cs.filterMap SetterCall.validArg).getLast? := rfl
      rw [this, getLast?_cons_getD]
      rfl
    | setParse fn => rfl

theorem runCalls_parse {ε : Type} (calls : List (SetterCall ε)) :
    ∀ st : Registry ε,
      (runCalls calls st).parseChainIDFunc = (lastParseArg calls).getD st.parseChainIDFunc := by
  induction calls with
  | nil => intro st; rfl
  | cons c cs ih =>
    intro st
    have hstep : runCalls (c :: cs) st = runCalls cs (runCall c st) := rfl
    rw [hstep, ih]
    cases c with
    | setValid fn => rfl
    | setParse fn =>
      have : lastParseArg (SetterCall.setParse fn :: cs)
          = (fn :: cs.filterMap SetterCall.parseArg).getLast? := rfl
      rw [this, getLast?_cons_getD]
      rfl

/-- C17: the setters are last-write-wins and independent: after any finite
sequence of setter calls from the initial state, the active validator is the
argument of the last `SetValidChainIDFunc` call (`DefaultValidChainID` if
there is none) and the active parser is the argument of the last
`SetParseChainIDFunc` call (`DefaultParseChainID` if there is none);
`SetValidChainIDFunc` leaves the parser and `SetParseChainIDFunc` the
validator as they were. -/
theorem setters_last_write_wins {ε : Type} (ErrInvalidChainID : ε)
    (calls : List (SetterCall ε)) :
    (runCalls calls (Registry.initial ErrInvalidChainID)).validChainIDFunc
        = (lastValidArg calls).getD DefaultValidChainID ∧
      (runCalls calls (Registry.initial ErrInvalidChainID)).parseChainIDFunc
        = (lastParseArg calls).getD (DefaultParseChainID ErrInvalidChainID) ∧
      (∀ (st : Registry ε) (g : String → Bool),
        (SetValidChainIDFunc g st).parseChainIDFunc = st.parseChainIDFunc) ∧
      (∀ (st : Registry ε) (f : String → ParseResult ε),
        (SetParseChainIDFunc f st).validChainIDFunc = st.validChainIDFunc) :=
  ⟨runCalls_valid calls _, runCalls_parse calls _, fun _ _ => rfl, fun _ _ => rfl⟩

/-- C18: the validator gives the same result when the limit of 48 is measured
on the trimmed string instead of the raw one: for every string `s`,
`DefaultValidChainID s` is the result of the validator that guards on
`len (TrimSpace s)` and matches the raw `s`. -/
theorem trimmed_guard_unobservable (s : String) :
    DefaultValidChainID s = TrimmedGuardValidChainID s := by
  unfold DefaultValidChainID TrimmedGuardValidChainID
  by_cases hm : ethermintChainID.MatchString s = true
  · obtain ⟨name, n, m, hs⟩ := (MatchString_iff s).1 hm
    rw [TrimSpace_of_splits s name n m hs]
  · have hf : ethermintChainID.MatchString s = false := by simpa using hm
    rw [hf]
    simp

/-! ## The size of the parsed number -/

theorem digitsOf_lt (n : List Char) (h : ∀ c ∈ n, inRange '0' '9' c = true) :
    ∀ x ∈ digitsOf (String.mk n), x < 10 := by
  intro x hx
  simp only [digitsOf, List.mem_map, List.mem_reverse] at hx
  obtain ⟨c, hc, rfl⟩ := hx
  have := toNat_of_inRange _ _ _ (h c hc)
  have e1 : '0'.toNat = 48 := rfl
  have e2 : '9'.toNat = 57 := rfl
  omega

theorem decimalValue_lt (n : List Char) (h : ∀ c ∈ n, inRange '0' '9' c = true) :
    decimalValue (String.mk n) < 10 ^ n.length := by
  have := Nat.ofDigits_lt_base_pow_length (b := 10) (by omega) (digitsOf_lt n h)
  simpa [decimalValue, digitsOf] using this

theorem decimalValue_pos (n : List Char) (h : HeadTail '1' '9' '0' '9' n) :
    1 ≤ decimalValue (String.mk n) := by
  obtain ⟨d, ds, rfl, hd, -⟩ := h
  have hb := toNat_of_inRange _ _ _ hd
  have e1 : '1'.toNat = 49 := rfl
  have e2 : '0'.toNat = 48 := rfl
  have hd1 : 1 ≤ d.toNat - '0'.toNat := by omega
  simp only [decimalValue, digitsOf, List.reverse_cons, List.map_append, List.map_cons,
    List.map_nil, Nat.ofDigits_append, Nat.ofDigits_singleton]
  have hpow : 1 ≤ 10 ^ (List.map (fun c : Char => c.toNat - '0'.toNat) ds.reverse).length :=
    Nat.one_le_pow _ _ (by omega)
  calc 1 ≤ 10 ^ (List.map (fun c : Char => c.toNat - '0'.toNat) ds.reverse).length
          * (d.toNat - '0'.toNat) := Nat.mul_le_mul hpow hd1
    _ ≤ _ := Nat.le_add_left _ _

theorem splits_numeral_length (s : String) (name n m : List Char) (h : SplitsAs s.data name n m)
    (hlen : len s ≤ 48) : n.length ≤ 44 := by
  have hl := len_of_splits s name n m h
  obtain ⟨hdata, ⟨a, as, rfl, -⟩, -, ⟨e, es, rfl, -⟩⟩ := h
  have : s.length = (a :: as ++ '_' :: (n ++ '-' :: e :: es)).length := by
    rw [String.length, hdata]
  simp only [List.cons_append, List.length_cons, List.length_append] at this
  omega

/-- C19: for every string `s` on which `DefaultParseChainID` succeeds, the
returned integer `r` satisfies `1 ≤ r < 10^44`. -/
theorem parsed_value_bounded {ε : Type} (ErrInvalidChainID : ε) (s : String)
    (h : (DefaultParseChainID ErrInvalidChainID s).2 = none) :
    ∃ r : Int, (DefaultParseChainID ErrInvalidChainID s).1 = some r ∧ 1 ≤ r ∧ r < 10 ^ 44 := by
  rcases parse_cases ErrInvalidChainID s with ⟨hlen, name, n, m, hs, hp⟩ | ⟨-, msg, hp⟩
  · refine ⟨(decimalValue (String.mk n) : Int), by rw [hp], ?_, ?_⟩
    · exact_mod_cast decimalValue_pos n hs.2.2.1
    · have h1 := decimalValue_lt n (headTail_digits n hs.2.2.1)
      have h2 := splits_numeral_length _ name n m hs hlen
      have h3 : 10 ^ n.length ≤ 10 ^ 44 := Nat.pow_le_pow_right (by omega) h2
      have h4 : decimalValue (String.mk n) < 10 ^ 44 := lt_of_lt_of_le h1 h3
      exact_mod_cast h4
  · rw [hp] at h
    cases h

/-- C19 at `"ethermint_1-1"`, and at a string of 48 characters whose number has
44 digits, all of them `9`: the parser returns `10^44 - 1`. -/
theorem parsed_value_bounded_witness :
    (DefaultParseChainID () "ethermint_1-1").2 = none ∧
      (∃ r : Int, (DefaultParseChainID () "ethermint_1-1").1 = some r ∧ 1 ≤ r ∧ r < 10 ^ 44) ∧
      DefaultParseChainID () "a_99999999999999999999999999999999999999999999-1"
        = (some (10 ^ 44 - 1), none) :=
  ⟨by decide, parsed_value_bounded () "ethermint_1-1" (by decide), by decide⟩

end ChainID
